import Mathlib

/-!
Verification of the oz-docs documentation-preview tool.

The tool is a small Node command-line script.  We give a shallow embedding
of its pure core: the version resolver (`getDocsVersion`), the content-source
derivation (`getSource` with the upward `.git` search), playbook assembly
(`makePlaybook`), idempotent initialization (`writeIfMissing`, `init`),
the manifest version rewrite (`updateVersion`) and the debounce timer
(`debounceFires`).

Modelling conventions:
- filesystem paths are lists of segments (`FsPath`), rooted at the
  filesystem root (the empty list); the component directories handed to
  assembly are taken already resolved to absolute segment paths;
- the filesystem, where needed, is an association list from path to file
  contents; throwing code is embedded in `Except String`;
- JavaScript values that may be `undefined` are embedded in an explicit
  sum (`JsStr`), with `undefined` rendered as the text "undefined" by
  template-string interpolation, exactly as JavaScript does;
- external collaborators (the yaml parser, the word-capitalization
  library, the actual disk) enter as environment records (`Env`,
  `InitEnv`) of uninterpreted functions.
-/

/-- A JavaScript value that is either a string or `undefined`. -/
inductive JsStr where
  | undef : JsStr
  | str : String → JsStr
deriving DecidableEq, Repr

/-- Template-string interpolation of a possibly-undefined value:
JavaScript renders `undefined` as the text "undefined". -/
def JsStr.interp : JsStr → String
  | JsStr.undef => "undefined"
  | JsStr.str s => s

/-- Array indexing in JavaScript: out-of-range access yields `undefined`. -/
def jsAt (l : List String) (n : Nat) : JsStr :=
  match l[n]? with
  | some s => JsStr.str s
  | none => JsStr.undef

/-- Model of the JavaScript string split at the dot separator,
accumulator-style over the character list.  As in JavaScript, the split
of the empty string is one empty part, and a trailing dot yields a
trailing empty part. -/
def splitDotAux : List Char → List Char → List String
  | [], acc => [String.mk acc.reverse]
  | c :: cs, acc =>
    if c = '.' then String.mk acc.reverse :: splitDotAux cs []
    else splitDotAux cs (c :: acc)

/-- The JavaScript split of the version string at dots. -/
def splitDot (s : String) : List String :=
  splitDotAux s.data []

/-- Embedding of `getDocsVersion` (source lines 418-428): destructure the
dot-split of the version as `[x, y, z]` (missing positions are
`undefined`, `z` is unused) and return `x.y` when `x` is the string "0"
or the exact flag is set, `x.x` otherwise. -/
def getDocsVersion (version : String) (exactFlag : Bool) : String :=
  let parts := splitDot version
  let x := jsAt parts 0
  let y := jsAt parts 1
  if x = JsStr.str "0" ∨ exactFlag = true then
    JsStr.interp x ++ "." ++ JsStr.interp y
  else
    JsStr.interp x ++ ".x"

/-- A filesystem path as its list of segments, from the filesystem root. -/
abbrev FsPath := List String

/-- Model of Node `path.dirname` on segment paths. -/
def pathDirname (p : FsPath) : FsPath := p.dropLast

/-- Strip the common leading segments of two paths, returning the two
remainders.  Auxiliary for `pathRelative`. -/
def stripCommon : FsPath → FsPath → FsPath × FsPath
  | a :: as, b :: bs => if a = b then stripCommon as bs else (a :: as, b :: bs)
  | as, bs => (as, bs)

/-- Model of Node `path.relative(fromDir, toDir)` on absolute segment
paths: drop the common root, then climb out of what remains of `fromDir`
with ".." segments and descend into the remainder of `toDir`. -/
def pathRelative (fromDir toDir : FsPath) : FsPath :=
  List.replicate (stripCommon fromDir toDir).1.length ".." ++ (stripCommon fromDir toDir).2

/-- Search for a directory containing a `.git` marker among the ancestors
of `d`, indexed by segment count: position `k` checks `d.take k` first and
walks outward to the filesystem root at position 0.  Returns the path of
the `.git` directory itself, as the findUp library does. -/
def findUpTake (hasGit : FsPath → Bool) (d : FsPath) : Nat → Option FsPath
  | 0 => if hasGit (d.take 0) then some (d.take 0 ++ [".git"]) else none
  | k + 1 =>
    if hasGit (d.take (k + 1)) then some (d.take (k + 1) ++ [".git"])
    else findUpTake hasGit d k

/-- Model of the findUp search for a `.git` directory: the nearest
enclosing directory of `d` (starting at `d` itself) that contains a
`.git` marker. -/
def findUpGit (hasGit : FsPath → Bool) (d : FsPath) : Option FsPath :=
  findUpTake hasGit d d.length

/-- The directory `root` is `d` itself or one of its enclosing ancestors. -/
abbrev dirEncloses (root d : FsPath) : Prop := d.take root.length = root

/-- A parsed component manifest (`antora.yml`), restricted to the fields
the assembler reads.  `start_page` is `none` when the key is absent or
null in the document. -/
structure Component where
  name : String
  start_page : Option String
deriving DecidableEq, Repr

/-- A derived content source as produced by `getSource` (source lines
306-321). -/
structure ContentSource where
  url : FsPath
  start_path : FsPath
  branches : String
deriving DecidableEq, Repr

/-- The `urls` section of a playbook, as a narrow typed view: the one key
the tool writes plus an opaque pass-through of the remaining keys. -/
structure UrlsSection where
  html_extension_style : Option String
  rest : List (String × String)
deriving DecidableEq, Repr

/-- The build configuration ("playbook"), as a narrow typed view of the
fields the tool reads or writes (`content.sources`, `site.start_page`,
the `urls` section) plus an opaque pass-through of the remaining keys. -/
structure Playbook where
  sources : List ContentSource
  start_page : String
  urls : Option UrlsSection
  rest : List (String × String)
deriving DecidableEq, Repr

/-- The ambient environment of one invocation: current working directory,
which directories hold a `.git` marker, the parsed manifest found at each
component directory (`none` when missing or unparsable), and the base
playbook template of the shared docs repository. -/
structure Env where
  cwd : FsPath
  hasGit : FsPath → Bool
  readManifest : FsPath → Option Component
  basePlaybook : Playbook

/-- Embedding of `getSource` (source lines 306-321): find the nearest
`.git` directory upward from the process working directory (not from the
component directory), fail if there is none, and otherwise build the
content source record with the fixed HEAD branches sentinel. -/
def getSource (env : Env) (componentDir : FsPath) : Except String ContentSource :=
  match findUpGit env.hasGit env.cwd with
  | none => Except.error "Must be inside a git repository"
  | some gitDir =>
    Except.ok { url := pathDirname gitDir,
                start_path := pathRelative (pathDirname gitDir) componentDir,
                branches := "HEAD" }

/-- Reading and parsing the `antora.yml` manifest of one component
directory: a missing or unparsable manifest throws. -/
def loadComponent (env : Env) (c : FsPath) : Except String Component :=
  match env.readManifest c with
  | some comp => Except.ok comp
  | none => Except.error "could not read antora.yml"

/-- JavaScript `s || d` on an optional string: the default is taken when
the value is absent (undefined or null) or is the falsy empty string. -/
def jsOrStr (s : Option String) (d : String) : String :=
  match s with
  | some v => if v = "" then d else v
  | none => d

/-- Embedding of `makePlaybook` (source lines 291-304): load all component
manifests, replace `content.sources` with the derived sources (in command
line order), set `site.start_page` from the first component, and when a
`urls` section is present force its `html_extension_style` to "default".
The error order follows the source: manifest loading throws first, then
source derivation, then the access to `components[0]` on an empty list. -/
def makePlaybook (env : Env) (componentDirs : List FsPath) : Except String Playbook :=
  match componentDirs.mapM (loadComponent env) with
  | Except.error e => Except.error e
  | Except.ok components =>
    match componentDirs.mapM (getSource env) with
    | Except.error e => Except.error e
    | Except.ok sources =>
      match components with
      | [] => Except.error "TypeError: components[0] is undefined"
      | first :: _ =>
        Except.ok
          { env.basePlaybook with
            sources := sources,
            start_page := first.name ++ "::" ++ jsOrStr first.start_page "index.adoc",
            urls := (env.basePlaybook.urls).map
              (fun u => { u with html_extension_style := some "default" }) }

deriving instance DecidableEq for Except

/-- First-match lookup in an association list keyed by strings. -/
def lookupKey {β : Type} (k : String) : List (String × β) → Option β
  | [] => none
  | (k2, v) :: rest => if k = k2 then some v else lookupKey k rest

/-- The filesystem as an association list from file path to contents. -/
abbrev FileSys := List (String × String)

/-- Node `path.join` of a directory and a relative file name. -/
def pathJoin (a b : String) : String := a ++ "/" ++ b

/-- An exclusive (wx-flag) file write: fails with `EEXIST` when the file
already exists, creates it otherwise. -/
def writeFileWx (fs : FileSys) (file contents : String) : Except String FileSys :=
  if (lookupKey file fs).isSome then Except.error "EEXIST"
  else Except.ok ((file, contents) :: fs)

/-- Embedding of `writeIfMissing` (source lines 430-439): attempt an
exclusive write and swallow exactly the `EEXIST` error, so a pre-existing
file is success, not failure. -/
def writeIfMissing (fs : FileSys) (file contents : String) : Except String FileSys :=
  match writeFileWx fs file contents with
  | Except.ok fs2 => Except.ok fs2
  | Except.error e => if e = "EEXIST" then Except.ok fs else Except.error e

/-- A left-to-right sequence of `writeIfMissing` calls, used to express
the three writes performed by `init`. -/
def writeAllIfMissing (fs : FileSys) : List (String × String) → Except String FileSys
  | [] => Except.ok fs
  | (f, c) :: rest =>
    match writeIfMissing fs f c with
    | Except.error e => Except.error e
    | Except.ok fs2 => writeAllIfMissing fs2 rest

/-- Environment of `init`: the base name of the working directory, the
external word-capitalization function (lodash startcase, uninterpreted),
and the package version with the `--exact` flag feeding the version
resolver. -/
structure InitEnv where
  cwdBase : String
  startCaseOf : String → String
  pkgVersion : String
  exactFlag : Bool

/-- The manifest text written by `init` (source lines 466-475). -/
def manifestContents (name title version : String) : String :=
  "name: " ++ name ++ "\ntitle: " ++ title ++ "\nversion: " ++ version ++
    "\nnav:\n  - modules/ROOT/nav.adoc\n"

/-- The three files `init` writes, in source order: component manifest,
navigation stub, index page stub. -/
def initFiles (env : InitEnv) (componentDir : String) : List (String × String) :=
  [(pathJoin componentDir "antora.yml",
    manifestContents env.cwdBase (env.startCaseOf env.cwdBase)
      (getDocsVersion env.pkgVersion env.exactFlag)),
   (pathJoin componentDir "modules/ROOT/nav.adoc", "* xref:index.adoc[Overview]\n"),
   (pathJoin componentDir "modules/ROOT/pages/index.adoc",
    "= " ++ env.startCaseOf env.cwdBase ++ "\n")]

/-- Embedding of `init` (source lines 459-486): create the page directory
(directories are not tracked by the model) and write the three scaffold
files, each only if absent. -/
def init (env : InitEnv) (fs : FileSys) (componentDir : String) : Except String FileSys :=
  writeAllIfMissing fs (initFiles env componentDir)

/-- A YAML scalar-or-list value as found in a component manifest. -/
inductive YVal where
  | str : String → YVal
  | strs : List String → YVal
  | vnull : YVal
deriving DecidableEq, Repr

/-- JavaScript property assignment `obj[k] = v` on a parsed YAML mapping
held as an association list: replace the value at an existing key in
place, append the key otherwise. -/
def jsSetProp (doc : List (String × YVal)) (k : String) (v : YVal) : List (String × YVal) :=
  if (lookupKey k doc).isSome then
    doc.map (fun kv => if kv.1 = k then (k, v) else kv)
  else doc ++ [(k, v)]

/-- Embedding of the document transformation inside `updateVersion`
(source lines 441-457): parse the manifest, set its `version` field to
the resolved docs version, and re-serialize.  We work at the level of the
parsed document. -/
def updateVersion (pkgVersion : String) (exactFlag : Bool)
    (comp : List (String × YVal)) : List (String × YVal) :=
  jsSetProp comp "version" (YVal.str (getDocsVersion pkgVersion exactFlag))

/-- Discrete-event model of the `debounce` wrapper (source lines 337-345)
driven by a list of event times: a pending timer (`some f` fires at time
`f`) is cancelled and rescheduled to now-plus-delay by any event that
arrives strictly before it fires; a timer whose time has been reached
fires and its firing time is recorded.  The returned list holds the times
at which the wrapped action runs. -/
def debounceFires (delay : Nat) : List Nat → Option Nat → List Nat
  | [], pending =>
    match pending with
    | some f => [f]
    | none => []
  | t :: rest, pending =>
    match pending with
    | none => debounceFires delay rest (some (t + delay))
    | some f =>
      if f ≤ t then f :: debounceFires delay rest (some (t + delay))
      else debounceFires delay rest (some (t + delay))

/-- Each event of the list arrives no earlier than the previous one and
strictly within its quiet window of `delay` time units. -/
def burstWithin (delay : Nat) : Nat → List Nat → Bool
  | _, [] => true
  | t, u :: rest => (decide (t ≤ u) && decide (u < t + delay)) && burstWithin delay u rest

/-- The time of the last event of a non-empty event sequence. -/
def lastEvent : Nat → List Nat → Nat
  | t, [] => t
  | _, u :: rest => lastEvent u rest

/-- Concrete environment: a repository at h/repo with two component
directories, a base template with a stale source list and a `urls`
section. -/
def envC1 : Env :=
  { cwd := ["h", "repo"],
    hasGit := fun p => p == ["h", "repo"],
    readManifest := fun c =>
      if c == ["h", "repo", "docs"] then
        some { name := "tokens", start_page := some "guide.adoc" }
      else if c == ["h", "repo", "lib", "docs"] then
        some { name := "lib", start_page := none }
      else none,
    basePlaybook :=
      { sources := [{ url := ["old"], start_path := [], branches := "master" }],
        start_page := "old::index.adoc",
        urls := some { html_extension_style := some "indexify", rest := [("x", "y")] },
        rest := [("site_title", "t")] } }

/-- The two component directories of `envC1`, in command line order. -/
def dirsC1 : List FsPath := [["h", "repo", "docs"], ["h", "repo", "lib", "docs"]]

/-- The playbook assembled from `envC1` and `dirsC1`. -/
def pbC1 : Playbook :=
  { sources := [{ url := ["h", "repo"], start_path := ["docs"], branches := "HEAD" },
                { url := ["h", "repo"], start_path := ["lib", "docs"], branches := "HEAD" }],
    start_page := "tokens::guide.adoc",
    urls := some { html_extension_style := some "default", rest := [("x", "y")] },
    rest := [("site_title", "t")] }

/-- Concrete environment whose single manifest carries an explicit empty
`start_page`, exercising JavaScript falsiness in the fallback. -/
def envC2 : Env :=
  { cwd := ["r"],
    hasGit := fun p => p == ["r"],
    readManifest := fun c =>
      if c == ["r", "docs"] then some { name := "a", start_page := some "" } else none,
    basePlaybook :=
      { sources := [{ url := ["x"], start_path := ["y"], branches := "main" }],
        start_page := "old::page", urls := none, rest := [] } }

/-- The playbook assembled from `envC2` and the single directory r/docs. -/
def pbC2 : Playbook :=
  { sources := [{ url := ["r"], start_path := ["docs"], branches := "HEAD" }],
    start_page := "a::index.adoc", urls := none, rest := [] }

/-- Concrete environment: working directory h/repo/sub inside a
repository rooted at h/repo. -/
def envC3 : Env :=
  { cwd := ["h", "repo", "sub"],
    hasGit := fun p => p == ["h", "repo"],
    readManifest := fun _ => none,
    basePlaybook := { sources := [], start_page := "", urls := none, rest := [] } }

/-- Concrete environment with no `.git` marker anywhere above the working
directory. -/
def envC8 : Env :=
  { cwd := ["a", "b"],
    hasGit := fun _ => false,
    readManifest := fun _ => none,
    basePlaybook := { sources := [], start_page := "", urls := none, rest := [] } }

/-- Concrete initializer environment with the identity as the external
capitalization function. -/
def initEnvW : InitEnv :=
  { cwdBase := "tokens", startCaseOf := fun s => s, pkgVersion := "1.2.3", exactFlag := false }

/-!
Theorems.  Helper lemmas come first, then one theorem per specification
claim (each with its witness, or its counterexample and amended form).
-/

/-- Claim C4: on a well-formed semantic version `X.Y.Z` the resolver returns
`X.Y` when `X = "0"` or the exact flag is set and `X.x` otherwise; in
particular the four documented examples hold. -/
theorem getDocsVersion_semver (v x y z : String) (e : Bool)
    (h : splitDot v = [x, y, z]) :
    getDocsVersion v e = (if x = "0" ∨ e = true then x ++ "." ++ y else x ++ ".x")
    ∧ getDocsVersion "0.5.2" false = "0.5"
    ∧ getDocsVersion "1.5.2" false = "1.x"
    ∧ getDocsVersion "1.5.2" true = "1.5"
    ∧ getDocsVersion "2.0.0" false = "2.x" := by
  refine ⟨?_, by decide, by decide, by decide, by decide⟩
  simp only [getDocsVersion, h, jsAt]
  by_cases hx : x = "0" <;> by_cases he : e = true <;>
    simp [hx, he, JsStr.interp]

/-- Witness for `getDocsVersion_semver` at the concrete version "1.5.2". -/
theorem getDocsVersion_semver_witness :
    getDocsVersion "1.5.2" false = "1.x" :=
  (getDocsVersion_semver "1.5.2" "1" "5" "2" false (by decide)).1.trans (by decide)

/-- Claim C9: version resolution is total on arbitrary strings (it is a plain
Lean function, so it never raises).  Writing `x` and `rest` for the head and
tail of the dot-split, the result is `x ++ "." ++ y` (with `y` the second
part, rendered "undefined" when absent) when `x = "0"` or the exact flag is
set, and `x ++ ".x"` otherwise; a dotless "0" yields "0.undefined". -/
theorem getDocsVersion_total (v : String) (e : Bool) (x : String) (rest : List String)
    (h : splitDot v = x :: rest) :
    getDocsVersion v e =
      (if x = "0" ∨ e = true then x ++ "." ++ ((rest[0]?).getD "undefined")
       else x ++ ".x")
    ∧ getDocsVersion "0" false = "0.undefined" := by
  refine ⟨?_, by decide⟩
  simp only [getDocsVersion, h, jsAt]
  cases hr : rest[0]? <;>
    by_cases hx : x = "0" <;> by_cases he : e = true <;>
      simp [hx, he, hr, JsStr.interp]

/-- Witness for `getDocsVersion_total` at the dotless version "7". -/
theorem getDocsVersion_total_witness :
    getDocsVersion "7" true = "7.undefined" :=
  (getDocsVersion_total "7" true "7" [] (by decide)).1.trans (by decide)

/-- When position `m` holds a marker and every position between `m`
(exclusive) and `k` (inclusive) does not, the search succeeds at `m`. -/
theorem findUpTake_some (hasGit : FsPath → Bool) (d : FsPath) :
    ∀ k m : Nat, m ≤ k → hasGit (d.take m) = true →
    (∀ j, m < j → j ≤ k → hasGit (d.take j) = false) →
    findUpTake hasGit d k = some (d.take m ++ [".git"]) := by
  intro k
  induction k with
  | zero =>
    intro m hm hgit _
    interval_cases m
    simp only [findUpTake, hgit, if_true]
  | succ k ih =>
    intro m hm hgit hnone
    by_cases hmk : m = k + 1
    · subst hmk
      simp only [findUpTake, hgit, if_true]
    · have hm2 : m ≤ k := by omega
      have hfail : hasGit (d.take (k + 1)) = false := hnone (k + 1) (by omega) (by omega)
      simp only [findUpTake, hfail, Bool.false_eq_true, if_false]
      exact ih m hm2 hgit (fun j h1 h2 => hnone j h1 (by omega))

/-- The search fails exactly when no ancestor position up to `k` holds a
marker. -/
theorem findUpTake_none_iff (hasGit : FsPath → Bool) (d : FsPath) :
    ∀ k : Nat, findUpTake hasGit d k = none ↔ ∀ j, j ≤ k → hasGit (d.take j) = false := by
  intro k
  induction k with
  | zero =>
    constructor
    · intro h j hj
      interval_cases j
      by_cases hg : hasGit (d.take 0) = true
      · simp only [findUpTake, hg, if_true] at h
        exact absurd h (by simp)
      · simpa using hg
    · intro h
      simp only [findUpTake, h 0 (by omega), Bool.false_eq_true, if_false]
  | succ k ih =>
    constructor
    · intro h j hj
      by_cases hg : hasGit (d.take (k + 1)) = true
      · simp only [findUpTake, hg, if_true] at h
        exact absurd h (by simp)
      · rcases Nat.lt_or_ge j (k + 1) with hj2 | hj2
        · have h2 : findUpTake hasGit d k = none := by
            simpa only [findUpTake, hg, Bool.false_eq_true, if_false] using h
          exact (ih.mp h2) j (by omega)
        · have : j = k + 1 := by omega
          subst this
          simpa using hg
    · intro h
      have h2 := ih.mpr (fun j hj => h j (by omega))
      simp only [findUpTake, h (k + 1) (by omega), Bool.false_eq_true, if_false]
      all_goals exact h2

/-- Every take of a directory path is one of its enclosing ancestors. -/
theorem dirEncloses_take (d : FsPath) (j : Nat) : dirEncloses (d.take j) d := by
  simp only [dirEncloses, List.length_take]
  rw [List.take_eq_take]
  omega

/-- An enclosing ancestor is no longer than the enclosed directory. -/
theorem dirEncloses_length_le (p d : FsPath) (h : dirEncloses p d) :
    p.length ≤ d.length := by
  have := congrArg List.length h
  simp at this
  omega

/-- An enclosing ancestor at least as long as the directory is the
directory itself. -/
theorem dirEncloses_eq_self (p d : FsPath) (h : dirEncloses p d)
    (hlen : d.length ≤ p.length) : p = d := by
  have hle := dirEncloses_length_le p d h
  have hl : p.length = d.length := by omega
  have h2 : d.take p.length = d := by rw [hl]; simp
  have h3 : d.take p.length = p := h
  rw [h2] at h3
  exact h3.symm

/-- The upward search finds the nearest enclosing directory with a
marker. -/
theorem findUpGit_some (env : Env) (root : FsPath)
    (h1 : dirEncloses root env.cwd) (h2 : env.hasGit root = true)
    (h3 : ∀ p : FsPath, dirEncloses p env.cwd → root.length < p.length → env.hasGit p = false) :
    findUpGit env.hasGit env.cwd = some (root ++ [".git"]) := by
  have hlen : root.length ≤ env.cwd.length := dirEncloses_length_le _ _ h1
  have hmain := findUpTake_some env.hasGit env.cwd env.cwd.length root.length hlen
    (by rw [h1]; exact h2)
    (by
      intro j hj1 hj2
      have henc := dirEncloses_take env.cwd j
      have hlenj : (env.cwd.take j).length = j := by simp; omega
      exact h3 (env.cwd.take j) henc (by omega))
  rw [findUpGit, hmain, h1]

/-- Claim C3: when the nearest version-control root enclosing the working
directory is `root`, the derived content source is exactly the record
whose url is `root`, whose start path is the component directory relative
to `root`, and whose branches field is the fixed sentinel HEAD. -/
theorem getSource_ok (env : Env) (cdir root : FsPath)
    (h1 : dirEncloses root env.cwd) (h2 : env.hasGit root = true)
    (h3 : ∀ p : FsPath, dirEncloses p env.cwd → root.length < p.length → env.hasGit p = false) :
    getSource env cdir =
      Except.ok { url := root, start_path := pathRelative root cdir, branches := "HEAD" } := by
  rw [getSource, findUpGit_some env root h1 h2 h3]
  simp [pathDirname]

/-- Witness for `getSource_ok`: working directory h/repo/sub inside the
repository h/repo, component directory h/repo/docs. -/
theorem getSource_ok_witness :
    getSource envC3 ["h", "repo", "docs"] =
      Except.ok { url := ["h", "repo"], start_path := ["docs"], branches := "HEAD" } := by
  have h := getSource_ok envC3 ["h", "repo", "docs"] ["h", "repo"]
    (by decide) (by decide)
    (by
      intro p henc hlen
      have hcw : (["h", "repo", "sub"] : FsPath).length = 3 := rfl
      have hrt : (["h", "repo"] : FsPath).length = 2 := rfl
      have hself : p = envC3.cwd := by
        refine dirEncloses_eq_self p envC3.cwd henc ?_
        show (["h", "repo", "sub"] : FsPath).length ≤ p.length
        rw [hrt] at hlen
        omega
      subst hself
      decide)
  exact h.trans (by decide)

/-- Claim C8: deriving a content source raises exactly when no enclosing
ancestor of the process working directory holds a version-control marker;
the condition does not mention the component directory (the search starts
at the working directory), and in the error case no source record is
produced. -/
theorem getSource_error_iff (env : Env) (cdir : FsPath) :
    getSource env cdir = Except.error "Must be inside a git repository"
      ↔ ∀ p : FsPath, dirEncloses p env.cwd → env.hasGit p = false := by
  constructor
  · intro h p henc
    have hnone : findUpGit env.hasGit env.cwd = none := by
      cases hfind : findUpGit env.hasGit env.cwd with
      | none => rfl
      | some g => simp [getSource, hfind] at h
    have hall := (findUpTake_none_iff env.hasGit env.cwd env.cwd.length).mp hnone
    have hle := dirEncloses_length_le p env.cwd henc
    have hx : env.hasGit (env.cwd.take p.length) = false := hall p.length hle
    have henc2 : env.cwd.take p.length = p := henc
    rwa [henc2] at hx
  · intro h
    have hnone : findUpGit env.hasGit env.cwd = none :=
      (findUpTake_none_iff env.hasGit env.cwd env.cwd.length).mpr
        (fun j _ => h (env.cwd.take j) (dirEncloses_take env.cwd j))
    simp [getSource, hnone]

/-- Witness for `getSource_error_iff`: an environment with no marker
anywhere yields the error. -/
theorem getSource_error_iff_witness :
    getSource envC8 ["a", "b", "docs"] = Except.error "Must be inside a git repository" :=
  (getSource_error_iff envC8 ["a", "b", "docs"]).mpr (fun _ _ => rfl)

/-- Claim C1: whenever assembly succeeds, the content sources of the
assembled playbook are exactly the sources derived from the component
directories, in command line order; whatever sources the base template
carried are discarded (the conclusion does not depend on them). -/
theorem makePlaybook_sources (env : Env) (dirs : List FsPath) (pb : Playbook)
    (srcs : List ContentSource)
    (h : makePlaybook env dirs = Except.ok pb)
    (hs : dirs.mapM (getSource env) = Except.ok srcs) :
    pb.sources = srcs := by
  cases hload : dirs.mapM (loadComponent env) with
  | error e =>
    simp only [makePlaybook, hload] at h
    exact Except.noConfusion h
  | ok comps =>
    cases comps with
    | nil =>
      simp only [makePlaybook, hload, hs] at h
      exact Except.noConfusion h
    | cons first rest =>
      simp only [makePlaybook, hload, hs, Except.ok.injEq] at h
      subst h
      rfl

/-- Witness for `makePlaybook_sources`: two components inside h/repo, with
the stale template source replaced by the two derived sources in order. -/
theorem makePlaybook_sources_witness :
    pbC1.sources =
      [{ url := ["h", "repo"], start_path := ["docs"], branches := "HEAD" },
       { url := ["h", "repo"], start_path := ["lib", "docs"], branches := "HEAD" }] :=
  makePlaybook_sources envC1 dirsC1 pbC1
    [{ url := ["h", "repo"], start_path := ["docs"], branches := "HEAD" },
     { url := ["h", "repo"], start_path := ["lib", "docs"], branches := "HEAD" }]
    rfl rfl

/-- Counterexample to claim C2 as stated: the first component of `envC2`
has a start page (the explicit empty string), yet the assembled start page
is the fallback "a::index.adoc" rather than the joined value, because the
JavaScript or-else treats the empty string as falsy. -/
theorem makePlaybook_startPage_cex :
    makePlaybook envC2 [["r", "docs"]] = Except.ok pbC2
    ∧ envC2.readManifest ["r", "docs"] = some { name := "a", start_page := some "" }
    ∧ pbC2.start_page ≠ "a" ++ "::" ++ "" := by
  refine ⟨rfl, rfl, by decide⟩

/-- Claim C2 as amended: whenever assembly succeeds, the assembled start
page is the first loaded component's name joined by "::" to its start
page, falling back to the conventional "index.adoc" when that start page
is absent or is the empty string (any falsy value); the conclusion
mentions only the first component, so later components never influence
the start page. -/
theorem makePlaybook_startPage (env : Env) (dirs : List FsPath) (pb : Playbook)
    (first : Component) (rest : List Component)
    (h : makePlaybook env dirs = Except.ok pb)
    (hc : dirs.mapM (loadComponent env) = Except.ok (first :: rest)) :
    pb.start_page =
      first.name ++ "::" ++
        (if first.start_page = none ∨ first.start_page = some "" then "index.adoc"
         else first.start_page.getD "index.adoc") := by
  cases hs : dirs.mapM (getSource env) with
  | error e =>
    simp only [makePlaybook, hc, hs] at h
    exact Except.noConfusion h
  | ok srcs =>
    simp only [makePlaybook, hc, hs, Except.ok.injEq] at h
    subst h
    show first.name ++ "::" ++ jsOrStr first.start_page "index.adoc" = _
    cases hsp : first.start_page with
    | none => simp [jsOrStr]
    | some s =>
      by_cases hse : s = ""
      · simp [jsOrStr, hse]
      · simp [jsOrStr, hse]

/-- Witness for `makePlaybook_startPage` on the empty-string start page. -/
theorem makePlaybook_startPage_witness :
    pbC2.start_page = "a::index.adoc" :=
  (makePlaybook_startPage envC2 [["r", "docs"]] pbC2
    { name := "a", start_page := some "" } [] rfl rfl).trans (by decide)

/-- Claim C7: whenever assembly succeeds, a base template without a urls
section leaves the assembled playbook without one, and a base template
with a urls section gets its extension-style option forced to the value
"default" (the local-serving normalization the source writes), all other
url keys preserved. -/
theorem makePlaybook_urls (env : Env) (dirs : List FsPath) (pb : Playbook)
    (h : makePlaybook env dirs = Except.ok pb) :
    (env.basePlaybook.urls = none → pb.urls = none)
    ∧ ∀ u : UrlsSection, env.basePlaybook.urls = some u →
        pb.urls = some { u with html_extension_style := some "default" } := by
  cases hload : dirs.mapM (loadComponent env) with
  | error e =>
    simp only [makePlaybook, hload] at h
    exact Except.noConfusion h
  | ok comps =>
    cases hs : dirs.mapM (getSource env) with
    | error e =>
      simp only [makePlaybook, hload, hs] at h
      exact Except.noConfusion h
    | ok srcs =>
      cases comps with
      | nil =>
        simp only [makePlaybook, hload, hs] at h
        exact Except.noConfusion h
      | cons first rest =>
        simp only [makePlaybook, hload, hs, Except.ok.injEq] at h
        subst h
        constructor
        · intro hu; simp [hu]
        · intro u hu; simp [hu]

/-- Witness for `makePlaybook_urls`: the template of `envC1` carries a
urls section, which comes out with the forced option value. -/
theorem makePlaybook_urls_witness :
    pbC1.urls = some { html_extension_style := some "default", rest := [("x", "y")] } :=
  (makePlaybook_urls envC1 dirsC1 pbC1 rfl).2
    { html_extension_style := some "indexify", rest := [("x", "y")] } rfl

/-- The exclusive-or-skip write always succeeds, leaving the filesystem
unchanged when the file exists and prepending the new file otherwise. -/
theorem writeIfMissing_ok (fs : FileSys) (f c : String) :
    writeIfMissing fs f c =
      Except.ok (if (lookupKey f fs).isSome then fs else (f, c) :: fs) := by
  unfold writeIfMissing writeFileWx
  by_cases h : (lookupKey f fs).isSome
  · simp [h]
  · simp [h]

/-- Unfolding of `lookupKey` at a cons cell. -/
theorem lookupKey_cons {β : Type} (p f : String) (c : β) (l : List (String × β)) :
    lookupKey p ((f, c) :: l) = if p = f then some c else lookupKey p l := by
  simp [lookupKey]

/-- A sequence of conditional writes always succeeds, preserves every
pre-existing binding, and leaves every named file present. -/
theorem writeAllIfMissing_ok (files : List (String × String)) :
    ∀ fs : FileSys, ∃ fs2 : FileSys,
      writeAllIfMissing fs files = Except.ok fs2
      ∧ (∀ p v, lookupKey p fs = some v → lookupKey p fs2 = some v)
      ∧ (∀ f c, (f, c) ∈ files → (lookupKey f fs2).isSome) := by
  induction files with
  | nil =>
    intro fs
    exact ⟨fs, rfl, fun p v h => h, by simp⟩
  | cons fc rest ih =>
    intro fs
    obtain ⟨f, c⟩ := fc
    have hwim := writeIfMissing_ok fs f c
    by_cases hpres : (lookupKey f fs).isSome
    · rw [if_pos hpres] at hwim
      obtain ⟨fs2, heq, hpre, hmem⟩ := ih fs
      refine ⟨fs2, ?_, hpre, ?_⟩
      · simp only [writeAllIfMissing, hwim]
        exact heq
      · intro g d hgd
        rcases List.mem_cons.mp hgd with hgd | hgd
        · obtain ⟨v, hv⟩ := Option.isSome_iff_exists.mp hpres
          cases hgd
          exact Option.isSome_iff_exists.mpr ⟨v, hpre f v hv⟩
        · exact hmem g d hgd
    · rw [if_neg hpres] at hwim
      obtain ⟨fs2, heq, hpre, hmem⟩ := ih ((f, c) :: fs)
      have hstep : ∀ p v, lookupKey p fs = some v → lookupKey p ((f, c) :: fs) = some v := by
        intro p v hv
        rw [lookupKey_cons]
        by_cases hpf : p = f
        · subst hpf
          rw [hv] at hpres
          simp at hpres
        · rw [if_neg hpf]
          exact hv
      refine ⟨fs2, ?_, fun p v hv => hpre p v (hstep p v hv), ?_⟩
      · simp only [writeAllIfMissing, hwim]
        exact heq
      · intro g d hgd
        rcases List.mem_cons.mp hgd with hgd | hgd
        · cases hgd
          have hf : lookupKey f ((f, c) :: fs) = some c := by
            rw [lookupKey_cons, if_pos rfl]
          exact Option.isSome_iff_exists.mpr ⟨c, hpre f c hf⟩
        · exact hmem g d hgd

/-- When every named file already exists, the sequence of conditional
writes succeeds and changes nothing. -/
theorem writeAllIfMissing_noop (files : List (String × String)) :
    ∀ fs : FileSys, (∀ f c, (f, c) ∈ files → (lookupKey f fs).isSome) →
      writeAllIfMissing fs files = Except.ok fs := by
  induction files with
  | nil => intro fs _; rfl
  | cons fc rest ih =>
    intro fs hall
    obtain ⟨f, c⟩ := fc
    have hf : (lookupKey f fs).isSome := hall f c (by simp)
    have hwim := writeIfMissing_ok fs f c
    rw [if_pos hf] at hwim
    simp only [writeAllIfMissing, hwim]
    exact ih fs (fun g d hgd => hall g d (List.mem_cons_of_mem _ hgd))

/-- Claim C5: initialization is idempotent at the file level.  Whenever a
first run turns `fs` into `fs1`, a second run succeeds and returns `fs1`
unchanged (so every file the first run or any earlier writer created
keeps its contents, and pre-existing files are treated as success), and
the first run itself preserved every pre-existing file. -/
theorem init_idempotent (env : InitEnv) (fs fs1 : FileSys) (c : String)
    (h : init env fs c = Except.ok fs1) :
    init env fs1 c = Except.ok fs1
    ∧ ∀ p v, lookupKey p fs = some v → lookupKey p fs1 = some v := by
  obtain ⟨fs2, heq, hpre, hmem⟩ := writeAllIfMissing_ok (initFiles env c) fs
  rw [init, heq] at h
  cases h
  constructor
  · exact writeAllIfMissing_noop (initFiles env c) fs1 hmem
  · exact hpre

/-- Witness for `init_idempotent`: scaffolding the docs directory next to
an unrelated pre-existing file. -/
theorem init_idempotent_witness :
    init initEnvW [("other.txt", "keep")] "docs" =
      Except.ok
        [(pathJoin "docs" "modules/ROOT/pages/index.adoc", "= tokens\n"),
         (pathJoin "docs" "modules/ROOT/nav.adoc", "* xref:index.adoc[Overview]\n"),
         (pathJoin "docs" "antora.yml", manifestContents "tokens" "tokens" "1.x"),
         ("other.txt", "keep")]
    ∧ lookupKey "other.txt"
        [(pathJoin "docs" "modules/ROOT/pages/index.adoc", "= tokens\n"),
         (pathJoin "docs" "modules/ROOT/nav.adoc", "* xref:index.adoc[Overview]\n"),
         (pathJoin "docs" "antora.yml", manifestContents "tokens" "tokens" "1.x"),
         ("other.txt", "keep")] = some "keep" := by
  constructor
  · rfl
  · exact (init_idempotent initEnvW [("other.txt", "keep")] _ "docs" rfl).2
      "other.txt" "keep" rfl

/-- Replacing the value at one key leaves lookups at other keys
unchanged. -/
theorem lookupKey_map_subst (doc : List (String × YVal)) (k k2 : String) (v : YVal)
    (hne : k2 ≠ k) :
    lookupKey k2 (doc.map (fun kv => if kv.1 = k then (k, v) else kv)) =
      lookupKey k2 doc := by
  induction doc with
  | nil => rfl
  | cons kv rest ih =>
    obtain ⟨k3, w⟩ := kv
    by_cases h3 : k3 = k
    · subst h3
      by_cases h2 : k2 = k3
      · exact absurd h2 hne
      · simp [lookupKey_cons, h2, ih]
    · by_cases h2 : k2 = k3
      · subst h2
        simp [lookupKey_cons, h3]
      · simp [lookupKey_cons, h2, h3, ih]

/-- Appending a binding for one key leaves lookups at other keys
unchanged. -/
theorem lookupKey_append_single (doc : List (String × YVal)) (k2 k : String) (v : YVal)
    (hne : k2 ≠ k) :
    lookupKey k2 (doc ++ [(k, v)]) = lookupKey k2 doc := by
  induction doc with
  | nil => simp [lookupKey, hne]
  | cons kv rest ih =>
    obtain ⟨k3, w⟩ := kv
    by_cases h2 : k2 = k3 <;> simp [lookupKey_cons, h2, ih]

/-- After in-place replacement at a present key, the lookup returns the
new value. -/
theorem lookupKey_map_self (doc : List (String × YVal)) (k : String) (v : YVal)
    (hp : (lookupKey k doc).isSome = true) :
    lookupKey k (doc.map (fun kv => if kv.1 = k then (k, v) else kv)) = some v := by
  induction doc with
  | nil => simp [lookupKey] at hp
  | cons kv rest ih =>
    obtain ⟨k3, w⟩ := kv
    by_cases h3 : k3 = k
    · subst h3
      simp [lookupKey_cons]
    · have hp2 : (lookupKey k rest).isSome = true := by
        rw [lookupKey_cons, if_neg (fun hh => h3 hh.symm)] at hp
        exact hp
      simp [lookupKey_cons, h3, ih hp2, Ne.symm h3]

/-- After appending a binding for an absent key, the lookup returns the
new value. -/
theorem lookupKey_append_self (doc : List (String × YVal)) (k : String) (v : YVal)
    (hp : lookupKey k doc = none) :
    lookupKey k (doc ++ [(k, v)]) = some v := by
  induction doc with
  | nil => simp [lookupKey]
  | cons kv rest ih =>
    obtain ⟨k3, w⟩ := kv
    by_cases h2 : k = k3
    · rw [lookupKey_cons, if_pos h2] at hp
      cases hp
    · rw [lookupKey_cons, if_neg h2] at hp
      simp [lookupKey_cons, h2, ih hp]

/-- Claim C10: the version rewrite changes only the version field of the
parsed manifest: every other key reads the same value afterwards, and the
version key reads the freshly resolved docs version. -/
theorem updateVersion_frame (pkgv : String) (e : Bool)
    (comp : List (String × YVal)) (k : String) (hk : k ≠ "version") :
    lookupKey k (updateVersion pkgv e comp) = lookupKey k comp
    ∧ lookupKey "version" (updateVersion pkgv e comp) =
        some (YVal.str (getDocsVersion pkgv e)) := by
  constructor
  · unfold updateVersion jsSetProp
    by_cases hp : (lookupKey "version" comp).isSome
    · rw [if_pos hp]
      exact lookupKey_map_subst comp "version" k _ hk
    · rw [if_neg hp]
      exact lookupKey_append_single comp k "version" _ hk
  · unfold updateVersion jsSetProp
    by_cases hp : (lookupKey "version" comp).isSome
    · rw [if_pos hp]
      exact lookupKey_map_self comp "version" _ hp
    · rw [if_neg hp]
      exact lookupKey_append_self comp "version" _
        (Option.not_isSome_iff_eq_none.mp hp)

/-- Witness for `updateVersion_frame` on a two-field manifest. -/
theorem updateVersion_frame_witness :
    lookupKey "name" (updateVersion "1.2.3" false
      [("name", YVal.str "tokens"), ("version", YVal.str "0.9")]) = some (YVal.str "tokens")
    ∧ lookupKey "version" (updateVersion "1.2.3" false
      [("name", YVal.str "tokens"), ("version", YVal.str "0.9")]) = some (YVal.str "1.x") := by
  have h := updateVersion_frame "1.2.3" false
    [("name", YVal.str "tokens"), ("version", YVal.str "0.9")] "name" (by decide)
  exact ⟨h.1.trans (by decide), h.2.trans (by decide)⟩

/-- A pending timer survives a whole burst and fires once, after the
window of the last event closes. -/
theorem debounceFires_burst (delay : Nat) (ts : List Nat) :
    ∀ t : Nat, burstWithin delay t ts = true →
      debounceFires delay ts (some (t + delay)) = [lastEvent t ts + delay] := by
  induction ts with
  | nil => intro t _; rfl
  | cons u rest ih =>
    intro t hb
    simp only [burstWithin, Bool.and_eq_true, decide_eq_true_eq] at hb
    obtain ⟨⟨hle, hlt⟩, hrest⟩ := hb
    have hnotle : ¬ (t + delay ≤ u) := by omega
    simp only [debounceFires, if_neg hnotle]
    rw [ih u hrest]
    rfl

/-- Claim C6: a sequence of events each arriving strictly within the
500-unit quiet window of the previous one triggers the wrapped action
exactly once, at the close of the window following the last event; two
events separated by more than the window trigger it exactly twice. -/
theorem debounce_spec (t0 : Nat) (ts : List Nat)
    (h : burstWithin 500 t0 ts = true) :
    debounceFires 500 (t0 :: ts) none = [lastEvent t0 ts + 500]
    ∧ ∀ u0 u1 : Nat, u0 + 500 < u1 →
        debounceFires 500 [u0, u1] none = [u0 + 500, u1 + 500] := by
  constructor
  · show debounceFires 500 ts (some (t0 + 500)) = _
    exact debounceFires_burst 500 ts t0 h
  · intro u0 u1 hgap
    show debounceFires 500 [u1] (some (u0 + 500)) = _
    have hle : u0 + 500 ≤ u1 := by omega
    simp only [debounceFires, if_pos hle]

/-- Witness for `debounce_spec`: a three-event burst fires once at 700,
and two far-apart events fire twice. -/
theorem debounce_spec_witness :
    debounceFires 500 [0, 100, 200] none = [700]
    ∧ debounceFires 500 [0, 501] none = [500, 1001] := by
  have h := debounce_spec 0 [100, 200] (by decide)
  exact ⟨h.1.trans (by decide), h.2 0 501 (by decide)⟩
